import Mathlib

/-!
Verification of the flowknow.dev front-end specification.

The repository's core is the `flowform` form engine (`createFlowForm`,
`reconcileFlowForm`, `updateFlowForm`) consumed by the Workbench page; the
engine itself is an external dependency whose source is not in the
repository, so its operations are modelled here from the specification
(section 4.1).  The page-level helpers (`parseNumber`, the auto-build entry
parser of the Workbench page, the list-refresh selection logic of the
Playground page, and the error branches of the asynchronous handlers) are
translated directly from the TypeScript source.

JavaScript objects used as value bags are modelled as functions
`String → Option V` (pointwise maps); JavaScript numbers appearing in the
chunking helpers are modelled as an inductive over `ℚ` together with the
non-finite points `NaN`, `+∞`, `-∞`; strings processed character by
character are modelled as `List Char`.
-/

namespace FlowForm

/-- Modelled from the spec: declarative description of one input
(`FieldSpec`, section 3).  `id` is the state key; `defaultValue` is used
only when a field is resolved fresh; the remaining attributes are
display-only and never read by the engine. -/
structure FieldSpec (V : Type) where
  id : String
  kind : String := "text"
  label : String := ""
  required : Bool := false
  defaultValue : Option V := none
  deriving DecidableEq

/-- Modelled from the spec: an ordered list of fields plus optional
display-only metadata (`SectionSpec`, section 3). -/
structure SectionSpec (V : Type) where
  title : Option String := none
  description : Option String := none
  fields : List (FieldSpec V)

/-- Modelled from the spec: a schema identity plus an ordered sequence of
sections (`FormDefinition`, section 3). -/
structure FlowFormDefinition (V : Type) where
  id : String
  sections : List (SectionSpec V)

/-- A JavaScript object keyed by field id, modelled pointwise: `none`
means the key is absent. -/
abbrev ValueMap (V : Type) := String → Option V

/-- Modelled from the spec: the mutable state produced and evolved by the
engine (`FormInstance`, section 3). -/
structure FlowFormInstance (V : Type) where
  definitionId : String
  values : ValueMap V

/-- Modelled from the spec: flattening all sections yields the
authoritative ordered list of fields of a definition (section 3). -/
def flattenFields {V : Type} (d : FlowFormDefinition V) : List (FieldSpec V) :=
  d.sections.flatMap (fun s => s.fields)

/-- The flattened field ids of a definition. -/
def fieldIds {V : Type} (d : FlowFormDefinition V) : List String :=
  (flattenFields d).map (fun f => f.id)

/-- The empty value bag. -/
def emptyValues {V : Type} : ValueMap V := fun _ => none

/-- Assignment of one key in a value bag, as in `obj[k] = v`. -/
def setKey {V : Type} (m : ValueMap V) (k : String) (v : V) : ValueMap V :=
  fun id => if id = k then some v else m id

/-- Modelled from the spec: the fresh-resolution priority of section 4.1,
`initialValues[id]` if the key is present (explicit falsy and empty values
included), else the field's `defaultValue`, else absent. -/
def resolveField {V : Type} (init : ValueMap V) (f : FieldSpec V) : Option V :=
  match init f.id with
  | some v => some v
  | none => f.defaultValue

/-- Modelled from the spec: the value reconciliation chooses for one field,
keeping a prior value when the instance already has one and otherwise
resolving fresh (section 4.1, reconcile step 1). -/
def reconValue {V : Type} (prior init : ValueMap V) (f : FieldSpec V) : Option V :=
  match prior f.id with
  | some v => some v
  | none => resolveField init f

/-- One iteration of the loop over the flattened field list: assign the
reconciled value when there is one, otherwise leave the key absent. -/
def applyField {V : Type} (prior init : ValueMap V) (acc : ValueMap V)
    (f : FieldSpec V) : ValueMap V :=
  match reconValue prior init f with
  | some v => setKey acc f.id v
  | none => acc

/-- Modelled from the spec: `instantiate(definition, initialValues?)`
(section 4.1) resolves every flattened field fresh — identical to running
the reconciliation loop with no prior values. -/
def createFlowForm {V : Type} (d : FlowFormDefinition V) (init : ValueMap V) :
    FlowFormInstance V :=
  { definitionId := d.id
    values := (flattenFields d).foldl (applyField emptyValues init) emptyValues }

/-- Modelled from the spec: `reconcile(instance, definition, initialValues?)`
(section 4.1).  The result is rebuilt from the new definition's flattened
list: prior values are kept, new fields are resolved fresh, and keys absent
from the new definition are dropped. -/
def reconcileFlowForm {V : Type} (inst : FlowFormInstance V)
    (d : FlowFormDefinition V) (init : ValueMap V) : FlowFormInstance V :=
  { definitionId := d.id
    values := (flattenFields d).foldl (applyField inst.values init) emptyValues }

/-- Modelled from the spec: `update(instance, patch)` (section 4.1),
the prior values overlaid by the patch, `definitionId` unchanged. -/
def updateFlowForm {V : Type} (inst : FlowFormInstance V) (patch : ValueMap V) :
    FlowFormInstance V :=
  { definitionId := inst.definitionId
    values := fun id =>
      match patch id with
      | some v => some v
      | none => inst.values id }

/-- The lookup of the reconciliation loop at a single key, folded over the
fields whose id matches that key: later assignments override earlier ones,
and fields that resolve to nothing leave the accumulator unchanged. -/
def chainValue {V : Type} (prior init : ValueMap V) (id : String)
    (fs : List (FieldSpec V)) (a : Option V) : Option V :=
  fs.foldl
    (fun cur f =>
      if f.id = id then
        match reconValue prior init f with
        | some v => some v
        | none => cur
      else cur) a

end FlowForm

namespace Flowknow

/-- JavaScript `String.prototype.trim`, acting on the character list of a
string: strip whitespace from both ends. -/
def jsTrim (cs : List Char) : List Char :=
  (cs.dropWhile Char.isWhitespace).rdropWhile Char.isWhitespace

/-- State of the scan that reproduces `entries.split(/\n{2,}/)`: completed
blocks in order, the current block in reverse, and the length of the
pending run of newline characters. -/
structure SplitState where
  done : List (List Char)
  cur : List Char
  nl : Nat

/-- One step of the split scan: newlines only extend the pending run; any
other character either closes the current block (run of length at least
two, the separator) or flushes the pending single newline into the block. -/
def splitStep (st : SplitState) (c : Char) : SplitState :=
  if c = '\n' then { st with nl := st.nl + 1 }
  else if st.nl ≥ 2 then { done := st.done ++ [st.cur.reverse], cur := [c], nl := 0 }
  else { st with cur := c :: (List.replicate st.nl '\n' ++ st.cur), nl := 0 }

/-- Close the scan: a trailing separator produces a final empty block, a
trailing single newline stays inside the last block, exactly as
`String.prototype.split` with the separator `/\n{2,}/` behaves. -/
def splitFinish (st : SplitState) : List (List Char) :=
  if st.nl ≥ 2 then st.done ++ [st.cur.reverse, []]
  else st.done ++ [(List.replicate st.nl '\n' ++ st.cur).reverse]

/-- `entries.split(/\n{2,}/)`: split on maximal runs of two or more
newline characters. -/
def splitOnBlankRuns (cs : List Char) : List (List Char) :=
  splitFinish (cs.foldl splitStep ⟨[], [], 0⟩)

/-- One knowledge item as assembled by `handleAutoBuild`
(`src/unnamed/part_001`, lines 329-340). -/
structure KnowledgeItem where
  title : List Char
  content : List Char
  chunk_size : ℚ
  chunk_overlap : ℚ
  deriving DecidableEq

/-- The first element of `block.split('\n')`: the characters before the
first newline. -/
def firstLine (cs : List Char) : List Char :=
  cs.takeWhile (fun c => c ≠ '\n')

/-- `rest.join('\n')` for `[first, ...rest] = block.split('\n')`: the
characters after the first newline, empty when there is none. -/
def remainingLines (cs : List Char) : List Char :=
  (cs.dropWhile (fun c => c ≠ '\n')).drop 1

/-- The body of the block mapper in `handleAutoBuild`
(`src/unnamed/part_001`, lines 330-340): the title is the trimmed first
line and the content the trimmed remaining lines, falling back to the
title when that remainder is empty (`rest.join('\n').trim() || title`). -/
def mkKnowledgeItem (chunkSize chunkOverlap : ℚ) (block : List Char) :
    KnowledgeItem :=
  let title := jsTrim (firstLine block)
  let body := jsTrim (remainingLines block)
  { title := title
    content := if body = [] then title else body
    chunk_size := chunkSize
    chunk_overlap := chunkOverlap }

/-- The knowledge-item pipeline of `handleAutoBuild`
(`src/unnamed/part_001`, lines 324-340): trim the entries, split on runs
of two or more newlines, trim each block and discard blank ones, then map
each block to a knowledge item. -/
def handleAutoBuildItems (chunkSize chunkOverlap : ℚ) (entries : List Char) :
    List KnowledgeItem :=
  let blocks := ((splitOnBlankRuns (jsTrim entries)).map jsTrim).filter
    (fun b => !b.isEmpty)
  blocks.map (mkKnowledgeItem chunkSize chunkOverlap)

/-- A JavaScript number as produced by `Number(value)`: a finite rational
or one of the non-finite points. -/
inductive JsNumber where
  | nan
  | posInf
  | negInf
  | finite (q : ℚ)
  deriving DecidableEq

/-- `DEFAULT_CHUNK_SIZE` of `src/unnamed/part_003`, line 14. -/
def DEFAULT_CHUNK_SIZE : ℚ := 750

/-- `DEFAULT_CHUNK_OVERLAP` of `src/unnamed/part_003`, line 15. -/
def DEFAULT_CHUNK_OVERLAP : ℚ := 50

/-- The `min` attribute advertised by the chunk-overlap number inputs of
`src/unnamed/part_003` (lines 525 and 768). -/
def OVERLAP_INPUT_MIN : ℚ := 0

/-- `parseNumber` of `src/unnamed/part_003`, lines 137-143, applied to the
result of `Number(value)`: a non-finite parse or one not strictly above
zero yields the fallback. -/
def parseNumber (parsed : JsNumber) (fallback : ℚ) : ℚ :=
  match parsed with
  | .finite q => if q ≤ 0 then fallback else q
  | _ => fallback

/-- The chunk-overlap argument computed by `handleTextIngestion`
(`src/unnamed/part_003`, line 354). -/
def handleTextIngestionOverlap (entered : JsNumber) : ℚ :=
  parseNumber entered DEFAULT_CHUNK_OVERLAP

/-- A knowledge-base summary as consumed by the pages; only the fields the
embedded logic reads are carried. -/
structure KnowledgeBaseSummary where
  id : String
  name : String := ""
  deriving DecidableEq

/-- The ids of a fetched list. -/
def listIds (data : List KnowledgeBaseSummary) : List String :=
  data.map (fun kb => kb.id)

/-- `data.length > 0 ? data[0].id : null`. -/
def headId (data : List KnowledgeBaseSummary) : Option String :=
  match data with
  | [] => none
  | kb :: _ => some kb.id

/-- The selection computed by `refreshKnowledgeBases` in
`src/frontend/src/pages/Playground.tsx`, lines 284-288: `nextId` is the
target id when one is supplied (`??` skips only null and undefined),
otherwise the current selection; a falsy `nextId` or one absent from the
fetched list falls back to the first element or null. -/
def refreshNextId (targetId selectedId : Option String)
    (data : List KnowledgeBaseSummary) : Option String :=
  let nextId := match targetId with
    | some t => some t
    | none => selectedId
  match nextId with
  | some s => if !s.isEmpty && data.any (fun item => item.id == s) then some s
      else headId data
  | none => headId data

/-- The selection updater passed to `setSelectedId` by
`fetchKnowledgeBases` in `src/frontend/src/pages/Playground.tsx`, lines
154-159: keep a truthy previous id still present in the fetched list,
otherwise select the first element or null. -/
def fetchNextId (previous : Option String)
    (data : List KnowledgeBaseSummary) : Option String :=
  match previous with
  | some p => if !p.isEmpty && data.any (fun item => item.id == p) then some p
      else headId data
  | none => headId data

end Flowknow

namespace FlowForm

/-- The upload-form definition built by the Workbench page
(`src/unnamed/part_001`, lines 203-223), with the numeric and secret
values both represented as naturals for concrete evaluation. -/
def demoDef : FlowFormDefinition Nat :=
  { id := "flowknow-upload"
    sections :=
      [{ fields :=
          [{ id := "chunk_size", kind := "number", label := "Chunk size",
             defaultValue := some 750 },
           { id := "chunk_overlap", kind := "number", label := "Overlap",
             defaultValue := some 50 },
           { id := "hf_api_key", kind := "password",
             label := "Hugging Face API key" }] }] }

/-- Initial values carrying an entry for `chunk_size` and for
`hf_api_key`, as the Workbench reconciliation effect supplies. -/
def demoInit : ValueMap Nat := fun id =>
  if id = "chunk_size" then some 900
  else if id = "hf_api_key" then some 7 else none

/-- A prior instance in which only `chunk_size` has a value. -/
def demoInst : FlowFormInstance Nat :=
  { definitionId := "flowknow-upload"
    values := fun id => if id = "chunk_size" then some 750 else none }

/-- A patch touching only the `name` key. -/
def demoPatch : ValueMap Nat := fun id =>
  if id = "name" then some 1 else none

end FlowForm

namespace FlowForm

theorem chainValue_cons {V : Type} (p i : ValueMap V) (id : String)
    (f : FieldSpec V) (fs : List (FieldSpec V)) (a : Option V) :
    chainValue p i id (f :: fs) a
      = chainValue p i id fs
          (if f.id = id then
            match reconValue p i f with
            | some v => some v
            | none => a
          else a) := rfl

theorem foldl_applyField_eq {V : Type} (p i : ValueMap V)
    (fs : List (FieldSpec V)) (acc : ValueMap V) (id : String) :
    (fs.foldl (applyField p i) acc) id = chainValue p i id fs (acc id) := by
  induction fs generalizing acc with
  | nil => rfl
  | cons f fs ih =>
    have hstep : applyField p i acc f id
        = (if f.id = id then
            match reconValue p i f with
            | some v => some v
            | none => acc id
          else acc id) := by
      unfold applyField
      cases hrv : reconValue p i f with
      | some v =>
        by_cases h : f.id = id
        · simp [setKey, h]
        · simp [setKey, if_neg (Ne.symm h), if_neg h]
      | none =>
        by_cases h : f.id = id <;> simp [h]
    calc ((f :: fs).foldl (applyField p i) acc) id
        = (fs.foldl (applyField p i) (applyField p i acc f)) id := rfl
      _ = chainValue p i id fs (applyField p i acc f id) := ih _
      _ = chainValue p i id (f :: fs) (acc id) := by rw [hstep]; rfl

theorem chainValue_of_not_mem {V : Type} {p i : ValueMap V} {id : String}
    {fs : List (FieldSpec V)} (h : ∀ f ∈ fs, f.id ≠ id) (a : Option V) :
    chainValue p i id fs a = a := by
  induction fs generalizing a with
  | nil => rfl
  | cons f fs ih =>
    have hf : f.id ≠ id := h f (List.mem_cons_self f fs)
    rw [chainValue_cons, if_neg hf]
    exact ih (fun g hg => h g (List.mem_cons_of_mem f hg)) a

theorem chainValue_const_some {V : Type} {p i : ValueMap V} {id : String}
    {fs : List (FieldSpec V)} {w : V}
    (h : ∀ f ∈ fs, f.id = id → reconValue p i f = some w)
    (hm : ∃ f ∈ fs, f.id = id) (a : Option V) :
    chainValue p i id fs a = some w := by
  induction fs generalizing a with
  | nil => exact absurd hm (by simp)
  | cons f fs ih =>
    by_cases hf : f.id = id
    · have hv : reconValue p i f = some w :=
        h f (List.mem_cons_self f fs) hf
      rw [chainValue_cons, if_pos hf, hv]
      by_cases hm2 : ∃ g ∈ fs, g.id = id
      · exact ih (fun g hg => h g (List.mem_cons_of_mem f hg)) hm2 _
      · push_neg at hm2
        exact chainValue_of_not_mem hm2 _
    · obtain ⟨g, hg, hgid⟩ := hm
      rcases List.mem_cons.mp hg with hgf | hgfs
      · exact absurd (hgf ▸ hgid) hf
      · rw [chainValue_cons, if_neg hf]
        exact ih (fun g hg => h g (List.mem_cons_of_mem f hg)) ⟨g, hgfs, hgid⟩ a

theorem chainValue_prior_some {V : Type} {p i : ValueMap V} {id : String}
    {fs : List (FieldSpec V)} {v : V} (hv : p id = some v)
    (hm : ∃ f ∈ fs, f.id = id) (a : Option V) :
    chainValue p i id fs a = some v := by
  refine chainValue_const_some (fun f _ hfid => ?_) hm a
  unfold reconValue
  rw [hfid, hv]

theorem chainValue_congr {V : Type} {p p' i i' : ValueMap V} {id : String}
    {fs : List (FieldSpec V)}
    (h : ∀ f ∈ fs, f.id = id → reconValue p i f = reconValue p' i' f)
    (a : Option V) :
    chainValue p i id fs a = chainValue p' i' id fs a := by
  induction fs generalizing a with
  | nil => rfl
  | cons f fs ih =>
    have htail : ∀ g ∈ fs, g.id = id → reconValue p i g = reconValue p' i' g :=
      fun g hg => h g (List.mem_cons_of_mem f hg)
    by_cases hf : f.id = id
    · rw [chainValue_cons, chainValue_cons, if_pos hf, if_pos hf,
        h f (List.mem_cons_self f fs) hf]
      exact ih htail _
    · rw [chainValue_cons, chainValue_cons, if_neg hf, if_neg hf]
      exact ih htail a

theorem chainValue_single {V : Type} {p i : ValueMap V}
    {fs : List (FieldSpec V)} {f : FieldSpec V} (hf : f ∈ fs)
    (hnd : (fs.map (fun g => g.id)).Nodup) (a : Option V) :
    chainValue p i f.id fs a =
      (match reconValue p i f with
       | some v => some v
       | none => a) := by
  induction fs generalizing a with
  | nil => exact absurd hf (by simp)
  | cons g gs ih =>
    rw [List.map_cons, List.nodup_cons] at hnd
    rcases List.mem_cons.mp hf with hfg | hfgs
    · subst hfg
      rw [chainValue_cons, if_pos rfl]
      have hnone : ∀ g ∈ gs, g.id ≠ f.id := by
        intro g hg hgid
        exact hnd.1 (hgid ▸ List.mem_map_of_mem (fun x => x.id) hg)
      cases hrv : reconValue p i f with
      | some v => exact chainValue_of_not_mem hnone _
      | none => exact chainValue_of_not_mem hnone _
    · have hgne : g.id ≠ f.id := by
        intro hgid
        exact hnd.1 (hgid ▸ List.mem_map_of_mem (fun x => x.id) hfgs)
      rw [chainValue_cons, if_neg hgne]
      exact ih hfgs hnd.2 a

theorem reconcileFlowForm_keeps {V : Type} (inst : FlowFormInstance V)
    (d : FlowFormDefinition V) (init : ValueMap V) (id : String) (v : V)
    (hmem : id ∈ fieldIds d) (hv : inst.values id = some v) :
    (reconcileFlowForm inst d init).values id = some v := by
  have hx : ∃ f ∈ flattenFields d, f.id = id := by
    simpa [fieldIds] using hmem
  show ((flattenFields d).foldl (applyField inst.values init) emptyValues) id
      = some v
  rw [foldl_applyField_eq]
  exact chainValue_prior_some hv hx _

/-- C1: for every instance, definition and initial-values map, reconcile
keeps any value the prior instance already has for a field id of the new
definition's flattened list: it is never overwritten by a new default or a
new initial value (the engine carries no provenance, so a value that came
from a default is protected exactly like a user edit). -/
theorem claimC1 {V : Type} (inst : FlowFormInstance V)
    (d : FlowFormDefinition V) (init : ValueMap V) (id : String) (v : V)
    (hmem : id ∈ fieldIds d) (hv : inst.values id = some v) :
    (reconcileFlowForm inst d init).values id = some v :=
  reconcileFlowForm_keeps inst d init id v hmem hv

theorem claimC1_witness :
    (reconcileFlowForm demoInst demoDef demoInit).values "chunk_size"
      = some 750 :=
  claimC1 demoInst demoDef demoInit "chunk_size" 750 (by decide) (by decide)

/-- C2: for a definition without field-id collisions, instantiate resolves
every flattened field by priority — the initial value when its key is
present (explicit falsy or empty values included), else the declared
default, else the key is absent — and the result carries the definition's
id and no other value entries. -/
theorem claimC2 {V : Type} (d : FlowFormDefinition V) (init : ValueMap V)
    (hnd : (fieldIds d).Nodup) :
    (createFlowForm d init).definitionId = d.id ∧
    (∀ f ∈ flattenFields d,
      (createFlowForm d init).values f.id =
        (match init f.id with
         | some v => some v
         | none => f.defaultValue)) ∧
    (∀ id, id ∉ fieldIds d → (createFlowForm d init).values id = none) := by
  refine ⟨rfl, ?_, ?_⟩
  · intro f hf
    show ((flattenFields d).foldl (applyField emptyValues init) emptyValues) f.id
        = _
    rw [foldl_applyField_eq]
    rw [chainValue_single hf hnd]
    have hrv : reconValue emptyValues init f = resolveField init f := rfl
    rw [hrv]
    unfold resolveField
    cases init f.id with
    | some v => rfl
    | none => cases f.defaultValue <;> rfl
  · intro id hid
    show ((flattenFields d).foldl (applyField emptyValues init) emptyValues) id
        = none
    rw [foldl_applyField_eq]
    refine chainValue_of_not_mem (fun f hf hfid => ?_) _
    exact hid (by simpa [fieldIds] using ⟨f, hf, hfid⟩)

theorem claimC2_witness :
    (createFlowForm demoDef demoInit).values "chunk_size" = some 900 ∧
    (createFlowForm demoDef demoInit).values "chunk_overlap" = some 50 ∧
    (createFlowForm demoDef demoInit).values "name" = none := by
  have h := claimC2 demoDef demoInit (by decide)
  refine ⟨?_, ?_, h.2.2 "name" (by decide)⟩
  · exact (h.2.1 ⟨"chunk_size", "number", "Chunk size", false, some 750⟩
      (by decide)).trans (by decide)
  · exact (h.2.1 ⟨"chunk_overlap", "number", "Overlap", false, some 50⟩
      (by decide)).trans (by decide)

/-- C3: reconcile never leaves a value under a key absent from the new
definition's flattened field list — stale entries of the prior instance
are dropped, so the values invariant holds after every reconciliation. -/
theorem claimC3 {V : Type} (inst : FlowFormInstance V)
    (d : FlowFormDefinition V) (init : ValueMap V) (id : String)
    (hid : id ∉ fieldIds d) :
    (reconcileFlowForm inst d init).values id = none := by
  show ((flattenFields d).foldl (applyField inst.values init) emptyValues) id
      = none
  rw [foldl_applyField_eq]
  refine chainValue_of_not_mem (fun f hf hfid => ?_) _
  exact hid (by simpa [fieldIds] using ⟨f, hf, hfid⟩)

theorem claimC3_witness :
    (reconcileFlowForm demoInst demoDef demoInit).values "entries" = none :=
  claimC3 demoInst demoDef demoInit "entries" (by decide)

/-- C4: reconcile is idempotent — reconciling an already-reconciled
instance against the same definition and initial values yields the same
definition id and pointwise identical values. -/
theorem claimC4 {V : Type} (inst : FlowFormInstance V)
    (d : FlowFormDefinition V) (init : ValueMap V) :
    (reconcileFlowForm (reconcileFlowForm inst d init) d init).definitionId
      = (reconcileFlowForm inst d init).definitionId ∧
    ∀ id, (reconcileFlowForm (reconcileFlowForm inst d init) d init).values id
      = (reconcileFlowForm inst d init).values id := by
  refine ⟨rfl, fun id => ?_⟩
  have hR : ∀ j, (reconcileFlowForm inst d init).values j
      = chainValue inst.values init j (flattenFields d) none :=
    fun j => foldl_applyField_eq inst.values init (flattenFields d) emptyValues j
  show ((flattenFields d).foldl
      (applyField (reconcileFlowForm inst d init).values init) emptyValues) id
      = (reconcileFlowForm inst d init).values id
  rw [foldl_applyField_eq, hR id]
  by_cases hm : ∃ f ∈ flattenFields d, f.id = id
  · cases ho : chainValue inst.values init id (flattenFields d) none with
    | some v =>
      exact chainValue_prior_some ((hR id).trans ho) hm _
    | none =>
      have hpv : inst.values id = none := by
        cases hiv : inst.values id with
        | some w =>
          exact absurd ((chainValue_prior_some hiv hm none).symm.trans ho)
            (by simp)
        | none => rfl
      have hRid : (reconcileFlowForm inst d init).values id = none :=
        (hR id).trans ho
      refine (chainValue_congr (fun f _ hfid => ?_) none).trans ho
      unfold reconValue
      rw [hfid, hRid, hpv]
  · push_neg at hm
    rw [chainValue_of_not_mem hm, chainValue_of_not_mem hm]
    rfl

/-- C5: update returns an instance whose values are the prior values
overlaid by the patch, with the definition id unchanged; every key the
patch does not carry keeps its prior value exactly. -/
theorem claimC5 {V : Type} (inst : FlowFormInstance V) (patch : ValueMap V) :
    (updateFlowForm inst patch).definitionId = inst.definitionId ∧
    (∀ id v, patch id = some v →
      (updateFlowForm inst patch).values id = some v) ∧
    (∀ id, patch id = none →
      (updateFlowForm inst patch).values id = inst.values id) := by
  refine ⟨rfl, ?_, ?_⟩ <;> intro id
  · intro v hp
    show (match patch id with
          | some v => some v
          | none => inst.values id) = some v
    rw [hp]
  · intro hp
    show (match patch id with
          | some v => some v
          | none => inst.values id) = inst.values id
    rw [hp]

theorem claimC5_witness :
    (updateFlowForm demoInst demoPatch).definitionId = "flowknow-upload" ∧
    (updateFlowForm demoInst demoPatch).values "name" = some 1 ∧
    (updateFlowForm demoInst demoPatch).values "chunk_size" = some 750 := by
  have h := claimC5 demoInst demoPatch
  exact ⟨h.1, h.2.1 "name" 1 (by decide),
    (h.2.2 "chunk_size" (by decide)).trans (by decide)⟩

/-- C6: during reconcile, a field of the new definition that already has a
value in the prior instance keeps it, and a field without a prior value
(newly introduced, or never touched) receives a newly supplied initial
value whenever the caller provides one — the only two ways a field's
state changes. -/
theorem claimC6 {V : Type} (inst : FlowFormInstance V)
    (d : FlowFormDefinition V) (init : ValueMap V) (id : String)
    (hmem : id ∈ fieldIds d) :
    (∀ v : V, inst.values id = some v →
      (reconcileFlowForm inst d init).values id = some v) ∧
    (inst.values id = none → ∀ w : V, init id = some w →
      (reconcileFlowForm inst d init).values id = some w) := by
  have hx : ∃ f ∈ flattenFields d, f.id = id := by
    simpa [fieldIds] using hmem
  constructor
  · intro v hv
    exact reconcileFlowForm_keeps inst d init id v hmem hv
  · intro hnone w hw
    show ((flattenFields d).foldl (applyField inst.values init) emptyValues) id
        = some w
    rw [foldl_applyField_eq]
    refine chainValue_const_some (fun f _ hfid => ?_) hx _
    unfold reconValue resolveField
    rw [hfid, hnone, hw]

theorem claimC6_witness :
    (reconcileFlowForm demoInst demoDef demoInit).values "hf_api_key"
      = some 7 :=
  (claimC6 demoInst demoDef demoInit "hf_api_key" (by decide)).2
    (by decide) 7 (by decide)

end FlowForm

namespace Flowknow

theorem jsTrim_head_not_ws {l : List Char} {c : Char} {cs : List Char}
    (h : jsTrim l = c :: cs) : c.isWhitespace = false := by
  unfold jsTrim at h
  obtain ⟨t, ht⟩ :=
    List.rdropWhile_prefix Char.isWhitespace (l.dropWhile Char.isWhitespace)
  rw [h] at ht
  have hA : l.dropWhile Char.isWhitespace = c :: (cs ++ t) := by
    rw [← ht]; rfl
  have h2 := List.head?_dropWhile_not Char.isWhitespace l
  rw [hA] at h2
  simpa using h2

theorem jsTrim_ne_nil {c : Char} {cs : List Char}
    (hc : c.isWhitespace = false) : jsTrim (c :: cs) ≠ [] := by
  unfold jsTrim
  rw [List.dropWhile_cons_of_neg (by simp [hc])]
  intro hnil
  rw [List.rdropWhile_eq_nil_iff] at hnil
  have hx := hnil c (List.mem_cons_self c cs)
  simp [hc] at hx

/-- C8: `parseNumber` returns the parsed number exactly when it is finite
and strictly positive, and the fallback otherwise; consequently the text
ingestion handler silently replaces a chunk overlap entered as 0 by the
default 50, although the overlap input widget advertises a minimum of 0. -/
theorem claimC8 (q f : ℚ) :
    (0 < q → parseNumber (.finite q) f = q) ∧
    (q ≤ 0 → parseNumber (.finite q) f = f) ∧
    parseNumber .nan f = f ∧
    parseNumber .posInf f = f ∧
    parseNumber .negInf f = f ∧
    handleTextIngestionOverlap (.finite 0) = DEFAULT_CHUNK_OVERLAP ∧
    DEFAULT_CHUNK_OVERLAP = 50 ∧
    OVERLAP_INPUT_MIN ≤ 0 := by
  refine ⟨?_, ?_, rfl, rfl, rfl, ?_, rfl, ?_⟩
  · intro h
    simp [parseNumber, not_le.mpr h]
  · intro h
    simp [parseNumber, h]
  · simp [handleTextIngestionOverlap, parseNumber]
  · norm_num [OVERLAP_INPUT_MIN]

theorem claimC8_witness :
    parseNumber (.finite 2) 50 = 2 ∧ parseNumber (.finite 0) 50 = 50 :=
  ⟨(claimC8 2 50).1 (by norm_num), (claimC8 0 50).2.1 (by norm_num)⟩

/-- C9: every knowledge item assembled by the auto-build handler — blocks
obtained by splitting the trimmed entries on runs of two or more newlines,
trimming and discarding blank blocks, title the trimmed first line and
content the trimmed remainder with the title as fallback — has a
non-empty title and non-empty content. -/
theorem claimC9 (chunkSize chunkOverlap : ℚ) (entries : List Char)
    (item : KnowledgeItem)
    (hmem : item ∈ handleAutoBuildItems chunkSize chunkOverlap entries) :
    item.title ≠ [] ∧ item.content ≠ [] := by
  unfold handleAutoBuildItems at hmem
  obtain ⟨block, hblock, hitem⟩ := List.mem_map.mp hmem
  have hbne : block ≠ [] := by
    have h2 := (List.mem_filter.mp hblock).2
    simpa using h2
  obtain ⟨y, hymem, hy⟩ := List.mem_map.mp (List.mem_filter.mp hblock).1
  obtain ⟨c, cs, hcc⟩ : ∃ c cs, block = c :: cs := by
    cases block with
    | nil => exact absurd rfl hbne
    | cons c cs => exact ⟨c, cs, rfl⟩
  have hcw : c.isWhitespace = false := jsTrim_head_not_ws (hy.trans hcc)
  have hcn : c ≠ '\n' := by
    intro hxx
    rw [hxx] at hcw
    simp at hcw
  have hfl : firstLine block = c :: cs.takeWhile (fun x => x ≠ '\n') := by
    rw [hcc]
    unfold firstLine
    rw [List.takeWhile_cons_of_pos (by simp [hcn])]
  have htitle : jsTrim (firstLine block) ≠ [] := by
    rw [hfl]
    exact jsTrim_ne_nil hcw
  rw [← hitem]
  unfold mkKnowledgeItem
  refine ⟨htitle, ?_⟩
  by_cases hb : jsTrim (remainingLines block) = []
  · simpa [hb] using htitle
  · simp [hb]

theorem claimC9_witness :
    (⟨['T'], ['b'], 750, 50⟩ : KnowledgeItem) ∈
      handleAutoBuildItems 750 50 ['T', '\n', 'b'] ∧
    (['T'] : List Char) ≠ [] ∧ (['b'] : List Char) ≠ [] :=
  ⟨by decide, claimC9 750 50 ['T', '\n', 'b'] ⟨['T'], ['b'], 750, 50⟩ (by decide)⟩

end Flowknow

namespace Flowknow

theorem headId_eq_none_iff (data : List KnowledgeBaseSummary) :
    headId data = none ↔ data = [] := by
  cases data <;> simp [headId]

theorem headId_mem {data : List KnowledgeBaseSummary} {s : String}
    (h : headId data = some s) : s ∈ listIds data := by
  cases data with
  | nil => simp [headId] at h
  | cons kb rest =>
    simp [headId] at h
    exact List.mem_map.mpr ⟨kb, List.mem_cons_self kb rest, h⟩

theorem any_id_iff {data : List KnowledgeBaseSummary} {s : String} :
    (data.any (fun item => item.id == s)) = true ↔ s ∈ listIds data := by
  simp [List.any_eq_true, listIds]

theorem fetchNextId_some_eq (p : String) (data : List KnowledgeBaseSummary) :
    fetchNextId (some p) data
      = if (!p.isEmpty && data.any (fun item => item.id == p)) = true
        then some p else headId data := rfl

theorem isEmpty_false_of_ne {p : String} (hp : p ≠ "") :
    p.isEmpty = false := by
  cases hb : p.isEmpty
  · rfl
  · exact absurd ((String.isEmpty_iff p).mp hb) hp

theorem fetchNextId_none_iff (previous : Option String)
    (data : List KnowledgeBaseSummary) :
    fetchNextId previous data = none ↔ data = [] := by
  cases previous with
  | none => exact headId_eq_none_iff data
  | some p =>
    rw [fetchNextId_some_eq]
    by_cases hc : (!p.isEmpty && data.any (fun item => item.id == p)) = true
    · rw [if_pos hc]
      constructor
      · intro h
        exact absurd h (by simp)
      · intro h
        subst h
        simp at hc
    · rw [if_neg hc]
      exact headId_eq_none_iff data

theorem fetchNextId_mem {previous : Option String}
    {data : List KnowledgeBaseSummary} {s : String}
    (h : fetchNextId previous data = some s) : s ∈ listIds data := by
  cases previous with
  | none => exact headId_mem h
  | some p =>
    rw [fetchNextId_some_eq] at h
    by_cases hc : (!p.isEmpty && data.any (fun item => item.id == p)) = true
    · rw [if_pos hc] at h
      rw [Bool.and_eq_true] at hc
      have hp := any_id_iff.mp hc.2
      exact Option.some.inj h ▸ hp
    · rw [if_neg hc] at h
      exact headId_mem h

theorem fetchNextId_keeps {p : String} {data : List KnowledgeBaseSummary}
    (hp : p ≠ "") (hmem : p ∈ listIds data) :
    fetchNextId (some p) data = some p := by
  have hcond : (!p.isEmpty && data.any (fun item => item.id == p)) = true := by
    rw [Bool.and_eq_true]
    refine ⟨?_, any_id_iff.mpr hmem⟩
    rw [isEmpty_false_of_ne hp]
    rfl
  rw [fetchNextId_some_eq, if_pos hcond]

theorem fetchNextId_falls_back {p : String}
    {data : List KnowledgeBaseSummary} (hmem : p ∉ listIds data) :
    fetchNextId (some p) data = headId data := by
  have hcond : ¬(!p.isEmpty && data.any (fun item => item.id == p)) = true := by
    rw [Bool.and_eq_true]
    rintro ⟨-, hany⟩
    exact hmem (any_id_iff.mp hany)
  rw [fetchNextId_some_eq, if_neg hcond]

theorem refreshNextId_eq_fetch (targetId selectedId : Option String)
    (data : List KnowledgeBaseSummary) :
    refreshNextId targetId selectedId data
      = fetchNextId
          (match targetId with
           | some t => some t
           | none => selectedId) data := by
  cases targetId <;> rfl

/-- C10 counterexample: refreshing with a target id overrides a previously
selected id that is still present in the fetched list — with the list
`[a, b]`, previous selection `a` and target `b`, the result is `b`, so the
previous selection is not preserved (and the result is not the first
element of the list either). -/
theorem claimC10_counterexample :
    "a" ∈ listIds [⟨"a", "Alpha"⟩, ⟨"b", "Beta"⟩] ∧
    headId [⟨"a", "Alpha"⟩, ⟨"b", "Beta"⟩] = some "a" ∧
    refreshNextId (some "b") (some "a") [⟨"a", "Alpha"⟩, ⟨"b", "Beta"⟩]
      = some "b" ∧
    refreshNextId (some "b") (some "a") [⟨"a", "Alpha"⟩, ⟨"b", "Beta"⟩]
      ≠ some "a" := by
  decide

/-- C10 (amended): after a completed fetch or refresh the selected id is a
member of the fetched list whenever the list is non-empty and null exactly
when the list is empty; a refresh with no target id behaves exactly like
the initial fetch — a previously selected non-empty id still present in
the list is preserved, and a previous id absent from the list falls back
to the first element — while a refresh given a non-empty target id that
appears in the list selects that target instead of the previous
selection. -/
theorem claimC10_amended (targetId selectedId : Option String)
    (data : List KnowledgeBaseSummary) :
    ((refreshNextId targetId selectedId data = none) ↔ data = []) ∧
    (∀ s, refreshNextId targetId selectedId data = some s →
      s ∈ listIds data) ∧
    ((fetchNextId selectedId data = none) ↔ data = []) ∧
    (∀ s, fetchNextId selectedId data = some s → s ∈ listIds data) ∧
    (refreshNextId none selectedId data = fetchNextId selectedId data) ∧
    (∀ p, selectedId = some p → p ≠ "" → p ∈ listIds data →
      fetchNextId selectedId data = some p) ∧
    (∀ p, selectedId = some p → p ∉ listIds data →
      fetchNextId selectedId data = headId data) ∧
    (∀ t, targetId = some t → t ≠ "" → t ∈ listIds data →
      refreshNextId targetId selectedId data = some t) := by
  refine ⟨?_, ?_, fetchNextId_none_iff _ _, fun s h => fetchNextId_mem h,
    rfl, ?_, ?_, ?_⟩
  · rw [refreshNextId_eq_fetch]
    exact fetchNextId_none_iff _ _
  · intro s h
    rw [refreshNextId_eq_fetch] at h
    exact fetchNextId_mem h
  · rintro p rfl hp hmem
    exact fetchNextId_keeps hp hmem
  · rintro p rfl hmem
    exact fetchNextId_falls_back hmem
  · rintro t rfl ht hmem
    rw [refreshNextId_eq_fetch]
    exact fetchNextId_keeps ht hmem

theorem claimC10_witness :
    fetchNextId (some "a") [⟨"a", "Alpha"⟩] = some "a" ∧
    refreshNextId (some "b") none [⟨"b", "Beta"⟩] = some "b" :=
  ⟨(claimC10_amended none (some "a") [⟨"a", "Alpha"⟩]).2.2.2.2.2.1 "a" rfl
      (by decide) (by decide),
   (claimC10_amended (some "b") none [⟨"b", "Beta"⟩]).2.2.2.2.2.2.2 "b" rfl
      (by decide) (by decide)⟩

end Flowknow
